import Mathlib

/-!
# Verification of the `html` tagged-template normalizer (`src/html.js`)

Shallow embedding of the JavaScript function `html(strings, ...values)`
over `List Char` (JS strings are sequences of code units; every construct
in the source operates character-by-character, so `List Char` is a
faithful model).  Each definition below mirrors one construct of the
source, in source order:

* `replCRLF`, `replCR`  — `combined.replace(/\r\n/g,'\n').replace(/\r/g,'\n')`
* `lastLineCR`, `localIndent` — `before.match(/(^|[\r\n])([ \t]*)$/)`
* `insertIndent`        — `v.replace(/\n/g, '\n' + indent)`
* `processValue`        — the `if (v.indexOf('\n') !== -1)` branch
* `stringifyValue`, `buildParts` — the interleaving loop and `parts.join('')`
* `splitNL`             — `combined.split('\n')`
* `isJSWhite`, `isBlank` — `l.trim() === ''` (ECMAScript WhiteSpace ∪ LineTerminator)
* `trimBoundary`        — the two `while` loops shifting/popping blank lines
* `leadCount`, `computeMin` — `(l.match(/^[ \t]*/))[0].length` and `Math.min(...)`
* `dropIndent`          — `l.replace(new RegExp('^[ \\t]{0,' + minIndent + '}'), '')`
* `rtrimST`             — `l.replace(/[ \t]+$/u, '')`
* `joinNL`, `collapseNL` — `dedented.join('\n').replace(/\n{3,}/g, '\n\n')`
* `html`                — the whole pipeline
-/

abbrev Str := List Char

/-- `c` is an ASCII space or horizontal tab — the `[ \t]` character class. -/
def isSpaceTab (c : Char) : Bool := c = ' ' || c = '\t'

/-- `c` is not a newline: the complement of `\n`, used to delimit lines. -/
def notNL (c : Char) : Bool := !(c == '\n')

/-- ECMAScript whitespace as recognized by `String.prototype.trim`:
WhiteSpace (TAB VT FF SP NBSP ZWNBSP and Unicode Zs) and LineTerminator
(LF CR LS PS). -/
def isJSWhite (c : Char) : Bool :=
  let n := c.toNat
  n = 0x9 || n = 0xa || n = 0xb || n = 0xc || n = 0xd || n = 0x20 ||
  n = 0xa0 || n = 0x1680 || (0x2000 ≤ n && n ≤ 0x200a) ||
  n = 0x2028 || n = 0x2029 || n = 0x202f || n = 0x205f || n = 0x3000 || n = 0xfeff

/-- `l.trim() === ''`: every character of the line is ECMAScript whitespace. -/
def isBlank (l : Str) : Bool := l.all isJSWhite

/-- `s.replace(/\r\n/g, '\n')`: left-to-right, non-overlapping. -/
def replCRLF : Str → Str
  | '\r' :: '\n' :: rest => '\n' :: replCRLF rest
  | c :: rest => c :: replCRLF rest
  | [] => []

/-- `s.replace(/\r/g, '\n')`: character-wise substitution. -/
def replCR (s : Str) : Str := s.map (fun c => if c = '\r' then '\n' else c)

/-- The newline normalization `s.replace(/\r\n/g,'\n').replace(/\r/g,'\n')`. -/
def normNL (s : Str) : Str := replCR (replCRLF s)

/-- The part of `before` after its last `\r` or `\n` (the whole string if it
has neither) — the region the regex `(^|[\r\n])([ \t]*)$` can match in. -/
def lastLineCR (s : Str) : Str :=
  (s.reverse.takeWhile (fun c => !(c == '\r' || c == '\n'))).reverse

/-- Capture group 2 of `before.match(/(^|[\r\n])([ \t]*)$/)`, and `''` when the
match fails.  The anchored pattern matches exactly when everything after the
last `\r`/`\n` (or the whole string, absent both) is spaces/tabs, in which case
group 2 is that whole trailing run; otherwise `match` returns `null` and the
source falls back to `''`. -/
def localIndent (before : Str) : Str :=
  if (lastLineCR before).all isSpaceTab then lastLineCR before else []

/-- `v.replace(/\n/g, '\n' + indent)`. -/
def insertIndent (indent : Str) : Str → Str
  | '\n' :: rest => '\n' :: (indent ++ insertIndent indent rest)
  | c :: rest => c :: insertIndent indent rest
  | [] => []

/-- The value-processing branch: `if (v.indexOf('\n') !== -1) v =
v.replace(/\r\n/g,'\n').replace(/\r/g,'\n').replace(/\n/g,'\n'+indent)`.
Note the containment test runs on `v` before any newline normalization. -/
def processValue (indent v : Str) : Str :=
  if '\n' ∈ v then insertIndent indent (normNL v) else v

/-- `if (v == null) v = ''; else v = String(v);` — `none` stands for
`null`/`undefined`, `some s` for any other value whose standard string
conversion is `s`. -/
def stringifyValue : Option Str → Str
  | none => []
  | some s => s

/-- The interleaving loop plus `parts.join('')`: for each `i < strings.length`,
push `strings[i]`, and if `i < values.length` also push the processed value. -/
def buildParts : List Str → List (Option Str) → Str
  | [], _ => []
  | s :: ss, [] => s ++ buildParts ss []
  | s :: ss, v :: vs =>
      s ++ processValue (localIndent s) (stringifyValue v) ++ buildParts ss vs

/-- `combined.split('\n')` — always returns at least one (possibly empty) line. -/
def splitNL : Str → List Str
  | [] => [[]]
  | c :: rest =>
      if c = '\n' then [] :: splitNL rest
      else (c :: (splitNL rest).headD []) :: (splitNL rest).tail

/-- The two mutation loops `while (lines.length && lines[0].trim() === '')
lines.shift()` and symmetrically `lines.pop()`. -/
def trimBoundary (L : List Str) : List Str :=
  ((L.dropWhile isBlank).reverse.dropWhile isBlank).reverse

/-- `(l.match(/^[ \t]*/) || [''])[0].length`: the leading space/tab count. -/
def leadCount (l : Str) : Nat := (l.takeWhile isSpaceTab).length

/-- `indents.length ? Math.min(...indents) : 0` over the non-blank lines. -/
def computeMin (lines : List Str) : Nat :=
  match (lines.filter (fun l => !(isBlank l))).map leadCount with
  | [] => 0
  | x :: xs => xs.foldl Nat.min x

/-- `l.replace(new RegExp('^[ \\t]{0,' + minIndent + '}'), '')`: greedily drop
up to `n` leading spaces/tabs. -/
def dropIndent : Nat → Str → Str
  | 0, l => l
  | _ + 1, [] => []
  | n + 1, c :: rest => if isSpaceTab c then dropIndent n rest else c :: rest

/-- `l.replace(/[ \t]+$/u, '')`: strip the trailing space/tab run. -/
def rtrimST (l : Str) : Str := (l.reverse.dropWhile isSpaceTab).reverse

/-- One line of the dedent pass: drop the margin, then right-trim. -/
def dedentLine (m : Nat) (l : Str) : Str := rtrimST (dropIndent m l)

/-- `dedented.join('\n')`. -/
def joinNL : List Str → Str
  | [] => []
  | [l] => l
  | l :: m :: rest => l ++ '\n' :: joinNL (m :: rest)

/-- `.replace(/\n{3,}/g, '\n\n')`: collapse every maximal run of three or more
newlines to exactly two. -/
def collapseNL : Str → Str
  | '\n' :: '\n' :: '\n' :: rest => collapseNL ('\n' :: '\n' :: rest)
  | c :: rest => c :: collapseNL rest
  | [] => []

/-- The line set after boundary trimming, just before margin computation —
steps up to `while … pop()` of the source. -/
def preLines (strings : List Str) (values : List (Option Str)) : List Str :=
  trimBoundary (splitNL (normNL (buildParts strings values)))

/-- The whole `html` pipeline of `src/html.js`. -/
def html (strings : List Str) (values : List (Option Str)) : Str :=
  let lines := preLines strings values
  if lines.isEmpty then []
  else collapseNL (joinNL (lines.map (dedentLine (computeMin lines))))

/-- The text before the first newline. -/
def firstLine (s : Str) : Str := s.takeWhile notNL

/-- The text after the last newline. -/
def lastLine (s : Str) : Str := (s.reverse.takeWhile notNL).reverse

/-- Join a list of chunks with a separator — used to state extensionally what
`insertIndent` produces. -/
def joinWith (sep : Str) : List Str → Str
  | [] => []
  | [l] => l
  | l :: m :: rest => l ++ sep ++ joinWith sep (m :: rest)

/-- Modelled from the spec (step 2 of §4.1): normalize the stringified value's
newlines first, and insert the local indent when the *normalized* value
contains a newline. -/
def processValueSpec (indent v : Str) : Str :=
  if '\n' ∈ normNL v then insertIndent indent (normNL v) else normNL v

-- Sanity checks against hand-executions of the source.
example : html [("   \n\n  \n".data)] [] = [] := by decide
example :
    html ["a\n\n\n\nb".data] [] = "a\n\nb".data := by decide
example :
    html ["  <div>\n    ".data, "</div>".data] [some "line1\nline2".data]
      = "<div>\n  line1\n  line2</div>".data := by decide

/-! ## Basic line-splitting theory -/

theorem splitNL_ne_nil (s : Str) : splitNL s ≠ [] := by
  cases s with
  | nil => simp [splitNL]
  | cons c rest =>
    rw [splitNL]
    split <;> simp

theorem splitNL_cons_nl (s : Str) : splitNL ('\n' :: s) = [] :: splitNL s := by
  rw [splitNL]; simp

theorem splitNL_cons (c : Char) (s : Str) (h : c ≠ '\n') :
    splitNL (c :: s) = (c :: (splitNL s).headD []) :: (splitNL s).tail := by
  rw [splitNL]; simp [h]

theorem headD_splitNL (s : Str) : (splitNL s).headD [] = s.takeWhile notNL := by
  induction s with
  | nil => simp [splitNL]
  | cons c rest ih =>
    by_cases h : c = '\n'
    · subst h; simp [splitNL_cons_nl, List.takeWhile_cons, notNL]
    · rw [splitNL_cons c rest h]
      simp only [List.headD_cons, List.takeWhile_cons, notNL]
      simp [h]
      simpa using ih

theorem mem_splitNL_no_nl {s : Str} : ∀ {l : Str}, l ∈ splitNL s → '\n' ∉ l := by
  induction s with
  | nil =>
    intro l h
    simp [splitNL] at h
    simp [h]
  | cons c rest ih =>
    intro l h
    by_cases hc : c = '\n'
    · subst hc
      rw [splitNL_cons_nl] at h
      rcases List.mem_cons.mp h with h | h
      · simp [h]
      · exact ih h
    · rw [splitNL_cons c rest hc] at h
      rcases List.mem_cons.mp h with h | h
      · subst h
        intro hmem
        rcases List.mem_cons.mp hmem with h0 | h0
        · exact hc h0.symm
        · have hh : (splitNL rest).headD [] ∈ splitNL rest := by
            cases hsp : splitNL rest with
            | nil => exact absurd hsp (splitNL_ne_nil rest)
            | cons a as => simp
          exact (ih hh) h0
      · have hmem : l ∈ splitNL rest := by
          cases hsp : splitNL rest with
          | nil => exact absurd hsp (splitNL_ne_nil rest)
          | cons a as =>
            rw [hsp] at h
            exact hsp ▸ List.mem_cons_of_mem a h
        exact ih hmem

theorem joinNL_cons_cons (l m : Str) (rest : List Str) :
    joinNL (l :: m :: rest) = l ++ '\n' :: joinNL (m :: rest) := by
  rw [joinNL]

theorem joinNL_splitNL (s : Str) : joinNL (splitNL s) = s := by
  induction s with
  | nil => simp [splitNL, joinNL]
  | cons c rest ih =>
    by_cases hc : c = '\n'
    · subst hc
      rw [splitNL_cons_nl]
      cases hsp : splitNL rest with
      | nil => exact absurd hsp (splitNL_ne_nil rest)
      | cons a as =>
        rw [joinNL_cons_cons]
        rw [hsp] at ih
        simp [ih]
    · rw [splitNL_cons c rest hc]
      cases hsp : splitNL rest with
      | nil => exact absurd hsp (splitNL_ne_nil rest)
      | cons a as =>
        rw [hsp] at ih
        simp only [List.headD_cons, List.tail_cons]
        cases as with
        | nil =>
          rw [joinNL]
          simp [joinNL] at ih
          simp [ih]
        | cons b bs =>
          rw [joinNL_cons_cons] at ih ⊢
          simp [← ih]

theorem splitNL_no_nl {l : Str} (h : '\n' ∉ l) : splitNL l = [l] := by
  induction l with
  | nil => simp [splitNL]
  | cons c rest ih =>
    have hc : c ≠ '\n' := fun hh => h (hh ▸ List.mem_cons_self c rest)
    have hr : '\n' ∉ rest := fun hh => h (List.mem_cons_of_mem c hh)
    rw [splitNL_cons c rest hc, ih hr]
    simp

theorem splitNL_append_nl {l : Str} (s : Str) (h : '\n' ∉ l) :
    splitNL (l ++ '\n' :: s) = l :: splitNL s := by
  induction l with
  | nil => simp [splitNL_cons_nl]
  | cons c rest ih =>
    have hc : c ≠ '\n' := fun hh => h (hh ▸ List.mem_cons_self c rest)
    have hr : '\n' ∉ rest := fun hh => h (List.mem_cons_of_mem c hh)
    rw [List.cons_append, splitNL_cons c _ hc, ih hr]
    simp

theorem splitNL_joinNL (L : List Str) (hne : L ≠ [])
    (h : ∀ l ∈ L, '\n' ∉ l) : splitNL (joinNL L) = L := by
  induction L with
  | nil => exact absurd rfl hne
  | cons l rest ih =>
    cases rest with
    | nil =>
      rw [joinNL]
      exact splitNL_no_nl (h l (List.mem_cons_self l []))
    | cons m t =>
      rw [joinNL_cons_cons]
      rw [splitNL_append_nl _ (h l (List.mem_cons_self l _))]
      rw [ih (by simp) (fun x hx => h x (List.mem_cons_of_mem l hx))]

/-! ## takeWhile / dropWhile helpers -/

theorem takeWhile_append_all {p : Char → Bool} {a : Str} (b : Str)
    (h : ∀ c ∈ a, p c = true) :
    (a ++ b).takeWhile p = a ++ b.takeWhile p := by
  induction a with
  | nil => simp
  | cons x xs ih =>
    have hx : p x = true := h x (List.mem_cons_self x xs)
    simp only [List.cons_append, List.takeWhile_cons, hx]
    simp [ih (fun c hc => h c (List.mem_cons_of_mem x hc))]

theorem takeWhile_append_stop {p : Char → Bool} {a : Str} (c : Char) (b : Str)
    (h : p c = false) (ha : ∀ x ∈ a, p x = true) :
    (a ++ c :: b).takeWhile p = a := by
  rw [takeWhile_append_all (c :: b) ha]
  simp [List.takeWhile_cons, h]

theorem dropWhile_append_stop {p : Char → Bool} {a : Str} (c : Char) (b : Str)
    (h : p c = false) (ha : ∀ x ∈ a, p x = true) :
    (a ++ c :: b).dropWhile p = c :: b := by
  induction a with
  | nil => simp [List.dropWhile_cons, h]
  | cons x xs ih =>
    have hx : p x = true := ha x (List.mem_cons_self x xs)
    simp only [List.cons_append, List.dropWhile_cons, hx]
    simp [ih (fun y hy => ha y (List.mem_cons_of_mem x hy))]

theorem dropWhile_append_last {p : Char → Bool} (a : Str) (c : Char)
    (h : p c = false) :
    (a ++ [c]).dropWhile p = a.dropWhile p ++ [c] := by
  induction a with
  | nil => simp [List.dropWhile_cons, h]
  | cons x xs ih =>
    by_cases hx : p x = true
    · simp [List.dropWhile_cons, hx, ih]
    · simp at hx
      simp [List.dropWhile_cons, hx]

theorem dropWhile_head_false {L : List Str} {x : Str} {xs : List Str}
    (h : L.dropWhile isBlank = x :: xs) : isBlank x = false := by
  induction L with
  | nil => simp at h
  | cons a as ih =>
    by_cases hb : isBlank a = true
    · rw [List.dropWhile_cons, hb] at h
      simp at h
      exact ih h
    · simp at hb
      rw [List.dropWhile_cons, hb] at h
      simp at h
      exact h.1 ▸ hb

/-! ## rtrimST and dropIndent -/

theorem rtrimST_nil : rtrimST [] = [] := rfl

theorem rtrimST_idem (l : Str) : rtrimST (rtrimST l) = rtrimST l := by
  unfold rtrimST
  rw [List.reverse_reverse]
  cases h : l.reverse.dropWhile isSpaceTab with
  | nil => simp
  | cons a as =>
    have ha : isSpaceTab a = false := by
      have := List.head?_dropWhile_not isSpaceTab l.reverse
      rw [h] at this
      simpa using this
    simp [List.dropWhile_cons, ha, h]

theorem rtrimST_cons_keep {c : Char} (l : Str) (h : isSpaceTab c = false) :
    rtrimST (c :: l) = c :: rtrimST l := by
  unfold rtrimST
  rw [List.reverse_cons, dropWhile_append_last _ c h]
  simp

theorem mem_dropWhile_of_neg {p : Char → Bool} {c : Char} {l : Str}
    (hc : p c = false) (h : c ∈ l) : c ∈ l.dropWhile p := by
  induction l with
  | nil => simp at h
  | cons x xs ih =>
    by_cases hx : p x = true
    · rw [List.dropWhile_cons, hx]
      simp only [if_true]
      rcases List.mem_cons.mp h with h0 | h0
      · subst h0; rw [hx] at hc; simp at hc
      · exact ih h0
    · simp at hx
      rw [List.dropWhile_cons, hx]
      simpa using h

theorem mem_rtrimST {c : Char} {l : Str} (hc : isSpaceTab c = false) (h : c ∈ l) :
    c ∈ rtrimST l := by
  unfold rtrimST
  rw [List.mem_reverse]
  exact mem_dropWhile_of_neg hc (List.mem_reverse.mpr h)

theorem dropIndent_zero (l : Str) : dropIndent 0 l = l := rfl

theorem dropIndent_prefixRun {p : Str} (rest : Str) (hws : p.all isSpaceTab = true) :
    dropIndent p.length (p ++ rest) = rest := by
  induction p with
  | nil => simp [dropIndent_zero]
  | cons c cs ih =>
    have hc : isSpaceTab c = true := by
      simp [List.all_cons] at hws
      exact hws.1
    have hcs : cs.all isSpaceTab = true := by
      simp [List.all_cons] at hws
      simpa using hws.2
    simp only [List.length_cons, List.cons_append]
    rw [dropIndent, if_pos hc]
    exact ih hcs

theorem mem_dropIndent {c : Char} {l : Str} {n : Nat}
    (hc : isSpaceTab c = false) (h : c ∈ l) : c ∈ dropIndent n l := by
  induction n generalizing l with
  | zero => simpa [dropIndent_zero] using h
  | succ m ih =>
    cases l with
    | nil => simp at h
    | cons x xs =>
      by_cases hx : isSpaceTab x = true
      · rw [dropIndent, if_pos hx]
        rcases List.mem_cons.mp h with h0 | h0
        · subst h0; rw [hx] at hc; simp at hc
        · exact ih h0
      · simp at hx
        rw [dropIndent, if_neg (by simp [hx])]
        exact h

theorem mem_dedentLine {c : Char} {l : Str} {m : Nat}
    (hc : isSpaceTab c = false) (h : c ∈ l) : c ∈ dedentLine m l := by
  unfold dedentLine
  exact mem_rtrimST hc (mem_dropIndent hc h)

theorem dropIndent_drop (n : Nat) (l : Str) : ∃ k, dropIndent n l = l.drop k := by
  induction n generalizing l with
  | zero => exact ⟨0, rfl⟩
  | succ m ih =>
    cases l with
    | nil => exact ⟨0, rfl⟩
    | cons x xs =>
      by_cases hx : isSpaceTab x = true
      · rw [dropIndent, if_pos hx]
        rcases ih xs with ⟨k, hk⟩
        exact ⟨k + 1, by simpa using hk⟩
      · rw [dropIndent, if_neg hx]
        exact ⟨0, rfl⟩

theorem no_nl_dropIndent {l : Str} {n : Nat} (h : '\n' ∉ l) : '\n' ∉ dropIndent n l := by
  rcases dropIndent_drop n l with ⟨k, hk⟩
  rw [hk]
  intro hmem
  exact h (List.mem_of_mem_drop hmem)

theorem no_nl_rtrimST {l : Str} (h : '\n' ∉ l) : '\n' ∉ rtrimST l := by
  intro hmem
  unfold rtrimST at hmem
  rw [List.mem_reverse] at hmem
  have := (List.dropWhile_suffix isSpaceTab).sublist.mem hmem
  exact h (List.mem_reverse.mp this)

theorem no_nl_dedentLine {l : Str} {m : Nat} (h : '\n' ∉ l) : '\n' ∉ dedentLine m l := by
  exact no_nl_rtrimST (no_nl_dropIndent h)

/-- Space and tab are ECMAScript whitespace, so a non-blank line owns a
character that is neither space nor tab. -/
theorem isJSWhite_of_isSpaceTab {c : Char} (h : isSpaceTab c = true) : isJSWhite c = true := by
  simp [isSpaceTab] at h
  rcases h with h | h <;> subst h <;> decide

theorem not_blank_exists {l : Str} (h : isBlank l = false) :
    ∃ c ∈ l, isJSWhite c = false := by
  unfold isBlank at h
  rw [List.all_eq_false] at h
  rcases h with ⟨c, hc, hv⟩
  exact ⟨c, hc, by simpa using hv⟩

theorem not_blank_dedentLine {l : Str} {m : Nat} (h : isBlank l = false) :
    isBlank (dedentLine m l) = false := by
  rcases not_blank_exists h with ⟨c, hc, hw⟩
  have hst : isSpaceTab c = false := by
    by_contra hcon
    simp at hcon
    rw [isJSWhite_of_isSpaceTab hcon] at hw
    simp at hw
  have : c ∈ dedentLine m l := mem_dedentLine hst hc
  unfold isBlank
  rw [List.all_eq_false]
  exact ⟨c, this, by simp [hw]⟩

/-! ## collapseNL theory -/

theorem collapseNL_no_nl {s : Str} (h : '\n' ∉ s) : collapseNL s = s := by
  induction s with
  | nil => rfl
  | cons c rest ih =>
    have hc : c ≠ '\n' := fun hh => h (hh ▸ List.mem_cons_self c rest)
    have hr : '\n' ∉ rest := fun hh => h (List.mem_cons_of_mem c hh)
    rw [collapseNL.eq_2 c rest (fun r1 hcn _ => hc hcn), ih hr]

theorem firstLine_collapseNL (s : Str) : firstLine (collapseNL s) = firstLine s := by
  induction s using collapseNL.induct with
  | case1 rest ih =>
    rw [collapseNL.eq_1, ih]
    simp [firstLine, List.takeWhile_cons, notNL]
  | case2 c rest hg ih =>
    rw [collapseNL.eq_2 c rest hg]
    by_cases hc : c = '\n'
    · subst hc; simp [firstLine, List.takeWhile_cons, notNL]
    · simp only [firstLine, List.takeWhile_cons, notNL]
      simp only [firstLine] at ih
      simp [hc, ih]
  | case3 => rfl

theorem head?_collapseNL (s : Str) : (collapseNL s).head? = s.head? := by
  induction s using collapseNL.induct with
  | case1 rest ih => rw [collapseNL.eq_1, ih]; rfl
  | case2 c rest hg ih => rw [collapseNL.eq_2 c rest hg]; rfl
  | case3 => rfl

theorem nl_mem_collapseNL {s : Str} (h : '\n' ∈ s) : '\n' ∈ collapseNL s := by
  induction s using collapseNL.induct with
  | case1 rest ih =>
    rw [collapseNL.eq_1]
    exact ih (List.mem_cons_self _ _)
  | case2 c rest hg ih =>
    rw [collapseNL.eq_2 c rest hg]
    rcases List.mem_cons.mp h with h0 | h0
    · exact h0 ▸ List.mem_cons_self _ _
    · exact List.mem_cons_of_mem c (ih h0)
  | case3 => simp at h

theorem headD_splitNL_collapseNL (s : Str) :
    (splitNL (collapseNL s)).headD [] = (splitNL s).headD [] := by
  rw [headD_splitNL, headD_splitNL]
  have h := firstLine_collapseNL s
  simpa [firstLine] using h

theorem tail_splitNL_collapseNL (s : Str) :
    ∀ l ∈ (splitNL (collapseNL s)).tail, l ∈ (splitNL s).tail := by
  induction s using collapseNL.induct with
  | case1 rest ih =>
    intro l hl
    rw [collapseNL.eq_1] at hl
    have h2 := ih l hl
    rw [splitNL_cons_nl, List.tail_cons] at h2 ⊢
    rw [splitNL_cons_nl]
    exact List.mem_cons_of_mem [] h2
  | case2 c rest hg ih =>
    intro l hl
    rw [collapseNL.eq_2 c rest hg] at hl
    by_cases hc : c = '\n'
    · subst hc
      rw [splitNL_cons_nl, List.tail_cons] at hl
      rw [splitNL_cons_nl, List.tail_cons]
      -- hl : l ∈ splitNL (collapseNL rest); goal : l ∈ splitNL rest
      cases hsp : splitNL (collapseNL rest) with
      | nil => exact absurd hsp (splitNL_ne_nil _)
      | cons a as =>
        rw [hsp] at hl
        rcases List.mem_cons.mp hl with h0 | h0
        · -- l is the head line of the collapsed remainder = head line of rest
          have h1 := headD_splitNL_collapseNL rest
          rw [hsp, List.headD_cons] at h1
          cases hr : splitNL rest with
          | nil => exact absurd hr (splitNL_ne_nil _)
          | cons b bs =>
            rw [hr, List.headD_cons] at h1
            rw [h0, h1]
            exact List.mem_cons_self b bs
        · have h4 : l ∈ (splitNL (collapseNL rest)).tail := by
            rw [hsp]; simpa using h0
          exact List.mem_of_mem_tail (ih l h4)
    · rw [splitNL_cons c (collapseNL rest) hc, List.tail_cons] at hl
      rw [splitNL_cons c rest hc, List.tail_cons]
      exact ih l hl
  | case3 =>
    intro l hl
    exact hl

theorem mem_splitNL_collapseNL {s : Str} {l : Str}
    (h : l ∈ splitNL (collapseNL s)) : l ∈ splitNL s := by
  cases hsp : splitNL (collapseNL s) with
  | nil => exact absurd hsp (splitNL_ne_nil _)
  | cons a as =>
    rw [hsp] at h
    rcases List.mem_cons.mp h with h0 | h0
    · have h1 := headD_splitNL_collapseNL s
      rw [hsp, List.headD_cons] at h1
      cases hr : splitNL s with
      | nil => exact absurd hr (splitNL_ne_nil _)
      | cons b bs =>
        rw [hr, List.headD_cons] at h1
        rw [h0, h1]
        exact List.mem_cons_self b bs
    · have h4 : l ∈ (splitNL (collapseNL s)).tail := by rw [hsp]; simpa using h0
      exact List.mem_of_mem_tail (tail_splitNL_collapseNL s l h4)

theorem tail_splitNL_collapseNL_rev (s : Str) :
    ∀ l ∈ (splitNL s).tail, l ≠ [] → l ∈ (splitNL (collapseNL s)).tail := by
  induction s using collapseNL.induct with
  | case1 rest ih =>
    intro l hl hne
    rw [collapseNL.eq_1]
    rw [splitNL_cons_nl, List.tail_cons] at hl
    -- hl : l ∈ splitNL ('\n' :: '\n' :: rest)
    rw [splitNL_cons_nl] at hl
    rcases List.mem_cons.mp hl with h0 | h0
    · exact absurd h0 hne
    · exact ih l (by rw [splitNL_cons_nl, List.tail_cons]; exact h0) hne
  | case2 c rest hg ih =>
    intro l hl hne
    rw [collapseNL.eq_2 c rest hg]
    by_cases hc : c = '\n'
    · subst hc
      rw [splitNL_cons_nl, List.tail_cons] at hl
      rw [splitNL_cons_nl, List.tail_cons]
      -- hl : l ∈ splitNL rest; goal : l ∈ splitNL (collapseNL rest)
      cases hr : splitNL rest with
      | nil => exact absurd hr (splitNL_ne_nil _)
      | cons b bs =>
        rw [hr] at hl
        rcases List.mem_cons.mp hl with h0 | h0
        · have h1 := headD_splitNL_collapseNL rest
          rw [hr, List.headD_cons] at h1
          cases hp : splitNL (collapseNL rest) with
          | nil => exact absurd hp (splitNL_ne_nil _)
          | cons a as =>
            rw [hp, List.headD_cons] at h1
            rw [h0, ← h1]
            exact List.mem_cons_self a as
        · have h4 : l ∈ (splitNL rest).tail := by rw [hr]; simpa using h0
          exact List.mem_of_mem_tail (ih l h4 hne)
    · rw [splitNL_cons c rest hc, List.tail_cons] at hl
      rw [splitNL_cons c (collapseNL rest) hc, List.tail_cons]
      exact ih l hl hne
  | case3 =>
    intro l hl
    simp [splitNL] at hl

theorem mem_splitNL_collapseNL_rev {s : Str} {l : Str}
    (h : l ∈ splitNL s) (hne : l ≠ []) : l ∈ splitNL (collapseNL s) := by
  cases hr : splitNL s with
  | nil => exact absurd hr (splitNL_ne_nil _)
  | cons b bs =>
    rw [hr] at h
    rcases List.mem_cons.mp h with h0 | h0
    · have h1 := headD_splitNL_collapseNL s
      rw [hr, List.headD_cons] at h1
      cases hp : splitNL (collapseNL s) with
      | nil => exact absurd hp (splitNL_ne_nil _)
      | cons a as =>
        rw [hp, List.headD_cons] at h1
        rw [h0, ← h1]
        exact List.mem_cons_self a as
    · have h4 : l ∈ (splitNL s).tail := by rw [hr]; simpa using h0
      exact List.mem_of_mem_tail (tail_splitNL_collapseNL_rev s l h4 hne)

theorem collapseNL_eq_self {s : Str} (h : ¬ (['\n', '\n', '\n'] <:+: s)) :
    collapseNL s = s := by
  induction s using collapseNL.induct with
  | case1 rest ih =>
    exact absurd (List.IsPrefix.isInfix ⟨rest, rfl⟩) h
  | case2 c rest hg ih =>
    rw [collapseNL.eq_2 c rest hg]
    rw [ih (fun hin => h (List.infix_cons hin))]
  | case3 => rfl

theorem prefix2_collapseNL {s : Str} (h : ['\n', '\n'] <+: collapseNL s) :
    ['\n', '\n'] <+: s := by
  induction s using collapseNL.induct with
  | case1 rest ih => exact ⟨'\n' :: rest, rfl⟩
  | case2 c rest hg ih =>
    rw [collapseNL.eq_2 c rest hg] at h
    rcases List.cons_prefix_cons.mp h with ⟨hc, h2⟩
    have hh := head?_collapseNL rest
    cases hcol : collapseNL rest with
    | nil => rw [hcol] at h2; simp at h2
    | cons a as =>
      rw [hcol] at h2
      rcases List.cons_prefix_cons.mp h2 with ⟨ha, _⟩
      rw [hcol, List.head?_cons] at hh
      cases hrest : rest with
      | nil => rw [hrest] at hh; simp at hh
      | cons c2 r2 =>
        rw [hrest, List.head?_cons] at hh
        have hc2 : c2 = '\n' := by
          injection hh with h1
          rw [← h1, ← ha]
        rw [← hc, hc2]
        exact ⟨r2, rfl⟩
  | case3 =>
    rw [collapseNL.eq_3] at h
    simp at h

theorem no_triple_collapseNL (s : Str) : ¬ (['\n', '\n', '\n'] <:+: collapseNL s) := by
  induction s using collapseNL.induct with
  | case1 rest ih => rw [collapseNL.eq_1]; exact ih
  | case2 c rest hg ih =>
    rw [collapseNL.eq_2 c rest hg]
    intro hin
    rcases List.infix_cons_iff.mp hin with hpre | hin2
    · rcases List.cons_prefix_cons.mp hpre with ⟨hc, hpre2⟩
      rcases prefix2_collapseNL hpre2 with ⟨t, ht⟩
      exact hg t hc.symm ht.symm
    · exact ih hin2
  | case3 => rw [collapseNL.eq_3]; simp

theorem takeWhile_all {p : Char → Bool} {l : Str} (h : ∀ c ∈ l, p c = true) :
    l.takeWhile p = l := by
  induction l with
  | nil => rfl
  | cons x xs ih =>
    rw [List.takeWhile_cons, h x (List.mem_cons_self x xs)]
    simp [ih (fun c hc => h c (List.mem_cons_of_mem x hc))]

theorem lastLine_no_nl {s : Str} (h : '\n' ∉ s) : lastLine s = s := by
  have h1 : s.reverse.takeWhile notNL = s.reverse := by
    refine takeWhile_all (fun c hc => ?_)
    have hcne : c ≠ '\n' := fun hh => h (hh ▸ List.mem_reverse.mp hc)
    simpa [notNL] using hcne
  unfold lastLine
  rw [h1, List.reverse_reverse]

theorem takeWhile_append_single {p : Char → Bool} (a : Str) {c : Char}
    (h : p c = false) : (a ++ [c]).takeWhile p = a.takeWhile p := by
  induction a with
  | nil => simp [List.takeWhile_cons, h]
  | cons x xs ih =>
    by_cases hx : p x = true
    · simp [List.takeWhile_cons, hx, ih]
    · simp at hx
      simp [List.takeWhile_cons, hx]

theorem takeWhile_append_stop_mem {p : Char → Bool} {a : Str} (b : Str)
    (h : ∃ y ∈ a, p y = false) : (a ++ b).takeWhile p = a.takeWhile p := by
  induction a with
  | nil => simp at h
  | cons x xs ih =>
    by_cases hx : p x = true
    · have hxs : ∃ y ∈ xs, p y = false := by
        rcases h with ⟨y, hy, hyp⟩
        rcases List.mem_cons.mp hy with h0 | h0
        · subst h0; rw [hx] at hyp; simp at hyp
        · exact ⟨y, h0, hyp⟩
      simp [List.takeWhile_cons, hx, ih hxs]
    · simp at hx
      simp [List.takeWhile_cons, hx]

theorem lastLine_cons_nl (x : Str) : lastLine ('\n' :: x) = lastLine x := by
  unfold lastLine
  rw [List.reverse_cons, takeWhile_append_single _ (by simp [notNL])]

theorem lastLine_cons_mem {c : Char} {x : Str} (h : '\n' ∈ x) :
    lastLine (c :: x) = lastLine x := by
  unfold lastLine
  rw [List.reverse_cons, takeWhile_append_stop_mem [c]
    ⟨'\n', List.mem_reverse.mpr h, by simp [notNL]⟩]

theorem lastLine_collapseNL (s : Str) : lastLine (collapseNL s) = lastLine s := by
  induction s using collapseNL.induct with
  | case1 rest ih =>
    rw [collapseNL.eq_1, ih]
    simp [lastLine_cons_nl]
  | case2 c rest hg ih =>
    rw [collapseNL.eq_2 c rest hg]
    by_cases hc : c = '\n'
    · subst hc
      rw [lastLine_cons_nl, lastLine_cons_nl, ih]
    · by_cases hmem : '\n' ∈ rest
      · rw [lastLine_cons_mem (nl_mem_collapseNL hmem), lastLine_cons_mem hmem, ih]
      · rw [collapseNL_no_nl hmem]
  | case3 => rfl

/-! ## Minimum computation -/

theorem foldl_min_le_init (zs : List Nat) : ∀ a : Nat, zs.foldl Nat.min a ≤ a := by
  induction zs with
  | nil => intro a; exact Nat.le_refl a
  | cons z t ih =>
    intro a
    rw [List.foldl_cons]
    exact Nat.le_trans (ih (Nat.min a z)) (Nat.min_le_left a z)

theorem foldl_min_le_mem {zs : List Nat} {y : Nat} (h : y ∈ zs) :
    ∀ a : Nat, zs.foldl Nat.min a ≤ y := by
  induction zs with
  | nil => simp at h
  | cons z t ih =>
    intro a
    rw [List.foldl_cons]
    rcases List.mem_cons.mp h with h0 | h0
    · exact Nat.le_trans (foldl_min_le_init t (Nat.min a z)) (h0 ▸ Nat.min_le_right a z)
    · exact ih h0 (Nat.min a z)

theorem le_foldl_min {zs : List Nat} {c : Nat} (hmem : ∀ y ∈ zs, c ≤ y) :
    ∀ a : Nat, c ≤ a → c ≤ zs.foldl Nat.min a := by
  induction zs with
  | nil => intro a ha; exact ha
  | cons z t ih =>
    intro a ha
    rw [List.foldl_cons]
    refine ih (fun y hy => hmem y (List.mem_cons_of_mem z hy)) _ ?_
    exact Nat.le_min.mpr ⟨ha, hmem z (List.mem_cons_self z t)⟩

theorem computeMin_le {lines : List Str} {l : Str}
    (hmem : l ∈ lines) (hnb : isBlank l = false) :
    computeMin lines ≤ leadCount l := by
  have hfm : leadCount l ∈ (lines.filter (fun l => !(isBlank l))).map leadCount :=
    List.mem_map_of_mem leadCount (List.mem_filter.mpr ⟨hmem, by simp [hnb]⟩)
  unfold computeMin
  cases hM : (lines.filter (fun l => !(isBlank l))).map leadCount with
  | nil => rw [hM] at hfm; simp at hfm
  | cons x xs =>
    rw [hM] at hfm
    rcases List.mem_cons.mp hfm with h0 | h0
    · exact h0 ▸ foldl_min_le_init xs x
    · exact foldl_min_le_mem h0 x

theorem le_computeMin {lines : List Str} {M : Nat}
    (h : ∀ l ∈ lines, isBlank l = false → M ≤ leadCount l)
    (hex : ∃ l ∈ lines, isBlank l = false) :
    M ≤ computeMin lines := by
  have hall : ∀ y ∈ (lines.filter (fun l => !(isBlank l))).map leadCount, M ≤ y := by
    intro y hy
    rcases List.mem_map.mp hy with ⟨l, hl, hly⟩
    rcases List.mem_filter.mp hl with ⟨hl1, hl2⟩
    exact hly ▸ h l hl1 (by simpa using hl2)
  unfold computeMin
  cases hM : (lines.filter (fun l => !(isBlank l))).map leadCount with
  | nil =>
    exfalso
    rcases hex with ⟨l, hl, hnb⟩
    have : leadCount l ∈ (lines.filter (fun l => !(isBlank l))).map leadCount :=
      List.mem_map_of_mem leadCount (List.mem_filter.mpr ⟨hl, by simp [hnb]⟩)
    rw [hM] at this
    simp at this
  | cons x xs =>
    refine le_foldl_min (fun y hy => ?_) x ?_
    · exact hall y (hM ▸ List.mem_cons_of_mem x hy)
    · exact hall x (hM ▸ List.mem_cons_self x xs)

/-! ## Boundary trimming -/

theorem trimBoundary_subset {L : List Str} {l : Str} (h : l ∈ trimBoundary L) : l ∈ L := by
  unfold trimBoundary at h
  rw [List.mem_reverse] at h
  have h1 := (List.dropWhile_suffix isBlank).sublist.mem h
  rw [List.mem_reverse] at h1
  exact (List.dropWhile_suffix isBlank).sublist.mem h1

theorem trimBoundary_head {L : List Str} {x : Str} {xs : List Str}
    (h : trimBoundary L = x :: xs) : isBlank x = false := by
  unfold trimBoundary at h
  have hx : ((L.dropWhile isBlank).reverse.dropWhile isBlank).getLast? = some x := by
    rw [← List.head?_reverse, h, List.head?_cons]
  have hD2ne : (L.dropWhile isBlank).reverse.dropWhile isBlank ≠ [] := by
    intro hnil
    rw [hnil] at hx
    simp at hx
  rcases List.dropWhile_suffix (l := (L.dropWhile isBlank).reverse) isBlank with ⟨t, ht⟩
  have hlast : (L.dropWhile isBlank).reverse.getLast? = some x := by
    rw [← ht, List.getLast?_append_of_ne_nil t hD2ne]
    exact hx
  rw [List.getLast?_reverse] at hlast
  cases hD1c : L.dropWhile isBlank with
  | nil => rw [hD1c] at hlast; simp at hlast
  | cons a as =>
    have ha : a = x := by
      rw [hD1c, List.head?_cons] at hlast
      injection hlast
    exact ha ▸ dropWhile_head_false hD1c

theorem trimBoundary_last {L : List Str} {x : Str}
    (h : (trimBoundary L).getLast? = some x) : isBlank x = false := by
  unfold trimBoundary at h
  rw [List.getLast?_reverse] at h
  cases hD : (L.dropWhile isBlank).reverse.dropWhile isBlank with
  | nil => rw [hD] at h; simp at h
  | cons a as =>
    have ha : a = x := by
      rw [hD, List.head?_cons] at h
      injection h
    exact ha ▸ dropWhile_head_false hD

theorem trimBoundary_nil {L : List Str} (h : ∀ l ∈ L, isBlank l = true) :
    trimBoundary L = [] := by
  unfold trimBoundary
  rw [List.dropWhile_eq_nil_iff.mpr h]
  simp

theorem trimBoundary_eq_self {L : List Str} {x y : Str}
    (hhead : L.head? = some x) (hx : isBlank x = false)
    (hlast : L.getLast? = some y) (hy : isBlank y = false) :
    trimBoundary L = L := by
  unfold trimBoundary
  have hD1 : L.dropWhile isBlank = L := by
    cases L with
    | nil => rfl
    | cons a as =>
      have hax : a = x := by rw [List.head?_cons] at hhead; injection hhead
      rw [List.dropWhile_cons, hax, hx]
      simp
  rw [hD1]
  have hD2 : L.reverse.dropWhile isBlank = L.reverse := by
    cases hrev : L.reverse with
    | nil => rfl
    | cons b bs =>
      have hb : b = y := by
        have h1 : L.reverse.head? = some b := by rw [hrev, List.head?_cons]
        rw [List.head?_reverse, hlast] at h1
        injection h1 with h2
        exact h2.symm
      rw [List.dropWhile_cons, hb, hy]
      simp
  rw [hD2, List.reverse_reverse]

/-! ## joinNL and the html pipeline skeleton -/

theorem firstLine_joinNL {d : Str} (rest : List Str) (h : '\n' ∉ d) :
    firstLine (joinNL (d :: rest)) = d := by
  cases rest with
  | nil =>
    rw [joinNL]
    unfold firstLine
    refine takeWhile_all (fun c hc => ?_)
    have : c ≠ '\n' := fun hh => h (hh ▸ hc)
    simpa [notNL] using this
  | cons m t =>
    rw [joinNL_cons_cons]
    unfold firstLine
    rw [takeWhile_append_stop (p := notNL) '\n' (joinNL (m :: t)) (by simp [notNL])
      (fun c hc => by
        have : c ≠ '\n' := fun hh => h (hh ▸ hc)
        simpa [notNL] using this)]

theorem lastLine_append_nl (x y : Str) : lastLine (x ++ '\n' :: y) = lastLine y := by
  unfold lastLine
  rw [List.reverse_append, List.reverse_cons, List.append_assoc]
  by_cases h : '\n' ∈ y
  · rw [takeWhile_append_stop_mem _ ⟨'\n', List.mem_reverse.mpr h, by simp [notNL]⟩]
  · have hall : ∀ c ∈ y.reverse, notNL c = true := by
      intro c hc
      have : c ≠ '\n' := fun hh => h (hh ▸ List.mem_reverse.mp hc)
      simpa [notNL] using this
    rw [takeWhile_append_all _ hall, takeWhile_all hall]
    simp [List.takeWhile_cons, notNL]

theorem lastLine_joinNL {L : List Str} {d : Str}
    (h : L.getLast? = some d) (hd : '\n' ∉ d) :
    lastLine (joinNL L) = d := by
  induction L with
  | nil => simp at h
  | cons a as ih =>
    cases as with
    | nil =>
      rw [List.getLast?_singleton] at h
      rw [joinNL]
      have had : a = d := by injection h
      rw [had, lastLine_no_nl hd]
    | cons m t =>
      rw [joinNL_cons_cons, lastLine_append_nl]
      refine ih ?_
      rw [← h]
      rw [List.getLast?_cons_cons]

/-! ## Newline normalization -/

theorem replCRLF_no_cr {s : Str} (h : '\r' ∉ s) : replCRLF s = s := by
  induction s using replCRLF.induct with
  | case1 rest ih => exact absurd (List.mem_cons_self _ _) h
  | case2 c rest hg ih =>
    rw [replCRLF.eq_2 c rest hg]
    rw [ih (fun hh => h (List.mem_cons_of_mem c hh))]
  | case3 => rfl

theorem replCR_no_cr {s : Str} (h : '\r' ∉ s) : replCR s = s := by
  unfold replCR
  rw [List.map_congr_left (fun c hc => ?_), List.map_id]
  have : c ≠ '\r' := fun hh => h (hh ▸ hc)
  simp [this]

theorem normNL_no_cr {s : Str} (h : '\r' ∉ s) : normNL s = s := by
  unfold normNL
  rw [replCRLF_no_cr h, replCR_no_cr h]

/-! ## Pipeline skeleton lemmas -/

theorem html_of_ne_nil {strings : List Str} {values : List (Option Str)}
    (h : preLines strings values ≠ []) :
    html strings values =
      collapseNL (joinNL ((preLines strings values).map
        (dedentLine (computeMin (preLines strings values))))) := by
  unfold html
  rw [if_neg (by simpa [List.isEmpty_iff] using h)]

theorem html_of_nil {strings : List Str} {values : List (Option Str)}
    (h : preLines strings values = []) : html strings values = [] := by
  unfold html
  rw [if_pos (by simpa [List.isEmpty_iff] using h)]

theorem mem_preLines_no_nl {strings : List Str} {values : List (Option Str)} {l : Str}
    (h : l ∈ preLines strings values) : '\n' ∉ l :=
  mem_splitNL_no_nl (trimBoundary_subset h)

theorem html_allBlank {strings : List Str} {values : List (Option Str)}
    (h : ∀ l ∈ splitNL (normNL (buildParts strings values)), isBlank l = true) :
    html strings values = [] :=
  html_of_nil (trimBoundary_nil h)

/-! ## Claim theorems -/

/-- C5: for every segments/values input, no line of the string returned by
`html` ends with a trailing space or tab character (right-trimming the line
changes nothing). -/
theorem C5_no_trailing_whitespace (strings : List Str) (values : List (Option Str)) :
    ∀ l ∈ splitNL (html strings values), rtrimST l = l := by
  intro l hl
  by_cases hpre : preLines strings values = []
  · rw [html_of_nil hpre] at hl
    simp [splitNL] at hl
    rw [hl, rtrimST_nil]
  · rw [html_of_ne_nil hpre] at hl
    have h1 := mem_splitNL_collapseNL hl
    have hds_ne : (preLines strings values).map
        (dedentLine (computeMin (preLines strings values))) ≠ [] := by
      simpa using hpre
    have hds_nl : ∀ d ∈ (preLines strings values).map
        (dedentLine (computeMin (preLines strings values))), '\n' ∉ d := by
      intro d hd
      rcases List.mem_map.mp hd with ⟨l0, hl0, hfl⟩
      exact hfl ▸ no_nl_dedentLine (mem_preLines_no_nl hl0)
    rw [splitNL_joinNL _ hds_ne hds_nl] at h1
    rcases List.mem_map.mp h1 with ⟨l0, hl0, hfl⟩
    rw [← hfl]
    unfold dedentLine
    exact rtrimST_idem _

/-- Witness for C5 at a concrete input: `html` maps `["a  "]` to `"a"`, whose
single line is unchanged by right-trimming. -/
theorem C5_no_trailing_whitespace_witness : rtrimST "a".data = "a".data :=
  C5_no_trailing_whitespace ["a  ".data] [] "a".data (by decide)

/-- C6: the result of `html` never starts or ends with a blank line, never
contains a run of three or more newlines, and is empty whenever every line of
the normalized concatenation is blank (in particular for an empty segment
sequence). -/
theorem C6_blank_line_invariants (strings : List Str) (values : List (Option Str)) :
    (html strings values ≠ [] →
        isBlank (firstLine (html strings values)) = false ∧
        isBlank (lastLine (html strings values)) = false) ∧
    ¬ (['\n', '\n', '\n'] <:+: html strings values) ∧
    ((∀ l ∈ splitNL (normNL (buildParts strings values)), isBlank l = true) →
        html strings values = []) := by
  refine ⟨?_, ?_, html_allBlank⟩
  · intro hne
    by_cases hpre : preLines strings values = []
    · exact absurd (html_of_nil hpre) hne
    · obtain ⟨p0, ps, hP⟩ : ∃ p0 ps, preLines strings values = p0 :: ps := by
        cases hc : preLines strings values with
        | nil => exact absurd hc hpre
        | cons a as => exact ⟨a, as, rfl⟩
      constructor
      · rw [html_of_ne_nil hpre, firstLine_collapseNL, hP, List.map_cons,
          firstLine_joinNL _ (no_nl_dedentLine (mem_preLines_no_nl
            (hP ▸ List.mem_cons_self p0 ps)))]
        exact not_blank_dedentLine (trimBoundary_head hP)
      · rw [html_of_ne_nil hpre, lastLine_collapseNL]
        obtain ⟨q, hq⟩ : ∃ q, (preLines strings values).getLast? = some q := by
          rw [hP]
          cases hqq : (p0 :: ps).getLast? with
          | none => simp at hqq
          | some q => exact ⟨q, rfl⟩
        have hqmem : q ∈ preLines strings values := List.mem_of_mem_getLast? hq
        have hmap_last : ((preLines strings values).map
            (dedentLine (computeMin (preLines strings values)))).getLast?
              = some (dedentLine (computeMin (preLines strings values)) q) := by
          rw [List.getLast?_map, hq]
          rfl
        rw [lastLine_joinNL hmap_last (no_nl_dedentLine (mem_preLines_no_nl hqmem))]
        exact not_blank_dedentLine (trimBoundary_last hq)
  · by_cases hpre : preLines strings values = []
    · rw [html_of_nil hpre]
      simp
    · rw [html_of_ne_nil hpre]
      exact no_triple_collapseNL _

/-- Witness for C6 at concrete inputs: `"a\n\n\n\nb"` normalizes with non-blank
boundary lines and no triple newline, and an all-blank template normalizes to
the empty string. -/
theorem C6_blank_line_invariants_witness :
    (isBlank (firstLine (html ["a\n\n\n\nb".data] [])) = false ∧
     isBlank (lastLine (html ["a\n\n\n\nb".data] [])) = false) ∧
    ¬ (['\n', '\n', '\n'] <:+: html ["a\n\n\n\nb".data] []) ∧
    html ["  \n ".data] [] = [] :=
  ⟨(C6_blank_line_invariants ["a\n\n\n\nb".data] []).1 (by decide),
   (C6_blank_line_invariants ["a\n\n\n\nb".data] []).2.1,
   (C6_blank_line_invariants ["  \n ".data] []).2.2 (by decide)⟩

theorem leadCount_ge_of_prefixed {p l : Str} (hp : p <+: l) (hws : p.all isSpaceTab = true) :
    p.length ≤ leadCount l := by
  rcases hp with ⟨t, ht⟩
  subst ht
  unfold leadCount
  rw [takeWhile_append_all t (fun c hc => List.all_eq_true.mp hws c hc)]
  simp

theorem isBlank_of_all_spaceTab {l : Str} (h : ∀ c ∈ l, isSpaceTab c = true) :
    isBlank l = true := by
  unfold isBlank
  rw [List.all_eq_true]
  exact fun c hc => isJSWhite_of_isSpaceTab (h c hc)

/-- C3: if every non-blank pre-dedent line shares a space/tab prefix `p` whose
length is the minimum leading-whitespace count (the common margin), then the
computed margin is exactly `p.length`, the dedent removes exactly that prefix
from every non-blank line, and some line of the result starts at column 0 with
a non-space/tab character. -/
theorem C3_margin_correctness (strings : List Str) (values : List (Option Str))
    (p : Str) (hws : p.all isSpaceTab = true)
    (hpre : ∀ l ∈ preLines strings values, isBlank l = false → p <+: l)
    (hmin : ∃ l ∈ preLines strings values, isBlank l = false ∧ leadCount l = p.length) :
    computeMin (preLines strings values) = p.length ∧
    (∀ l ∈ preLines strings values, isBlank l = false →
        dropIndent (computeMin (preLines strings values)) l = l.drop p.length) ∧
    (∃ l ∈ splitNL (html strings values), ∃ c r, l = c :: r ∧ isSpaceTab c = false) := by
  rcases hmin with ⟨l0, hl0mem, hl0nb, hl0lead⟩
  have hpre_ne : preLines strings values ≠ [] := by
    intro hnil
    rw [hnil] at hl0mem
    simp at hl0mem
  have hM : computeMin (preLines strings values) = p.length := by
    refine Nat.le_antisymm ?_ ?_
    · exact hl0lead ▸ computeMin_le hl0mem hl0nb
    · exact le_computeMin (fun l hl hnb => leadCount_ge_of_prefixed (hpre l hl hnb) hws)
        ⟨l0, hl0mem, hl0nb⟩
  have hdrop : ∀ l ∈ preLines strings values, isBlank l = false →
      dropIndent (computeMin (preLines strings values)) l = l.drop p.length := by
    intro l hl hnb
    rcases hpre l hl hnb with ⟨t, ht⟩
    rw [hM, ← ht, dropIndent_prefixRun t hws, List.drop_left]
  refine ⟨hM, hdrop, ?_⟩
  -- the minimum-indent non-blank line starts at column 0 after the dedent
  have hsplit : l0 = l0.takeWhile isSpaceTab ++ l0.dropWhile isSpaceTab :=
    (List.takeWhile_append_dropWhile isSpaceTab l0).symm
  have hdw_ne : l0.dropWhile isSpaceTab ≠ [] := by
    intro hnil
    have hall : ∀ c ∈ l0, isSpaceTab c = true := by
      intro c hc
      rw [hsplit, hnil, List.append_nil] at hc
      exact List.mem_takeWhile_imp hc
    rw [isBlank_of_all_spaceTab hall] at hl0nb
    simp at hl0nb
  obtain ⟨d0, dr, hdw⟩ : ∃ d0 dr, l0.dropWhile isSpaceTab = d0 :: dr := by
    cases hc : l0.dropWhile isSpaceTab with
    | nil => exact absurd hc hdw_ne
    | cons a as => exact ⟨a, as, rfl⟩
  have hd0 : isSpaceTab d0 = false := by
    have := List.head?_dropWhile_not isSpaceTab l0
    rw [hdw] at this
    simpa using this
  have htw_all : ∀ c ∈ l0.takeWhile isSpaceTab, isSpaceTab c = true :=
    fun c hc => List.mem_takeWhile_imp hc
  have htw_len : (l0.takeWhile isSpaceTab).length = p.length := hl0lead
  have hded : dedentLine (computeMin (preLines strings values)) l0
      = d0 :: rtrimST dr := by
    have hdd : dropIndent (l0.takeWhile isSpaceTab).length l0 = d0 :: dr := by
      nth_rewrite 2 [hsplit]
      rw [dropIndent_prefixRun _ (List.all_eq_true.mpr htw_all)]
      exact hdw
    unfold dedentLine
    rw [hM, ← htw_len, hdd, rtrimST_cons_keep dr hd0]
  refine ⟨dedentLine (computeMin (preLines strings values)) l0, ?_, d0, rtrimST dr,
    hded, hd0⟩
  rw [html_of_ne_nil hpre_ne]
  have hds_nl : ∀ d ∈ (preLines strings values).map
      (dedentLine (computeMin (preLines strings values))), '\n' ∉ d := by
    intro d hd
    rcases List.mem_map.mp hd with ⟨l1, hl1, hfl⟩
    exact hfl ▸ no_nl_dedentLine (mem_preLines_no_nl hl1)
  refine mem_splitNL_collapseNL_rev ?_ (by rw [hded]; simp)
  rw [splitNL_joinNL _ (by simpa using hpre_ne) hds_nl]
  exact List.mem_map_of_mem _ hl0mem

/-- Witness for C3 at a concrete input: the template `"  a\n   b"` has common
margin `"  "` (length 2); the dedent strips exactly that prefix and the result
starts with the non-whitespace character `a`. -/
theorem C3_margin_correctness_witness :
    computeMin (preLines ["  a\n   b".data] []) = 2 ∧
    dropIndent (computeMin (preLines ["  a\n   b".data] [])) "  a".data
      = "  a".data.drop 2 ∧
    ∃ l ∈ splitNL (html ["  a\n   b".data] []), ∃ c r, l = c :: r ∧ isSpaceTab c = false := by
  have h := C3_margin_correctness ["  a\n   b".data] [] "  ".data (by decide)
    (by decide) (by decide)
  exact ⟨h.1, h.2.1 "  a".data (by decide) (by decide), h.2.2⟩

/-- C4 counterexample: `"  a"` has no blank boundary lines, no trailing
whitespace on any line, and no newline runs, yet `html` is not the identity on
it — the uniform two-space margin is stripped. -/
theorem C4_idempotence_counterexample :
    html ["  a".data] [] ≠ "  a".data ∧ html ["  a".data] [] = "a".data := by
  constructor <;> decide

/-- C4 (amended): `html` on a single segment is the identity when additionally
the string has no carriage returns and the common margin of its non-blank
lines is zero (on top of the claim's conditions: non-blank boundary lines,
right-trimmed lines, and no run of three or more newlines). -/
theorem C4_idempotence (s : Str)
    (hcr : '\r' ∉ s)
    (hhead : isBlank ((splitNL s).headD []) = false)
    (hlast : isBlank ((splitNL s).getLastD []) = false)
    (htrail : ∀ l ∈ splitNL s, rtrimST l = l)
    (htriple : ¬ (['\n', '\n', '\n'] <:+: s))
    (hmargin : ∃ l ∈ splitNL s, isBlank l = false ∧ leadCount l = 0) :
    html [s] [] = s := by
  have hbuild : buildParts [s] [] = s := by simp [buildParts]
  have hnorm : normNL (buildParts [s] []) = s := by rw [hbuild, normNL_no_cr hcr]
  obtain ⟨x, xs, hx⟩ : ∃ x xs, splitNL s = x :: xs := by
    cases hc : splitNL s with
    | nil => exact absurd hc (splitNL_ne_nil s)
    | cons a as => exact ⟨a, as, rfl⟩
  obtain ⟨y, hy⟩ : ∃ y, (splitNL s).getLast? = some y := by
    rw [hx]
    cases hq : (x :: xs).getLast? with
    | none => simp at hq
    | some q => exact ⟨q, rfl⟩
  have hyD : (splitNL s).getLastD [] = y := by
    rw [List.getLastD_eq_getLast?, hy]
    rfl
  have hprel : preLines [s] [] = splitNL s := by
    unfold preLines
    rw [hnorm]
    refine trimBoundary_eq_self (x := x) (y := y) ?_ ?_ hy ?_
    · rw [hx]; rfl
    · have hxD : (splitNL s).headD [] = x := by rw [hx]; rfl
      rw [← hxD]
      exact hhead
    · rw [← hyD]
      exact hlast
  have hm0 : computeMin (splitNL s) = 0 := by
    rcases hmargin with ⟨l0, hl0, hnb, hlc⟩
    exact Nat.le_zero.mp (hlc ▸ computeMin_le hl0 hnb)
  have hmap : (splitNL s).map (dedentLine 0) = splitNL s := by
    have hcong : ∀ l ∈ splitNL s, dedentLine 0 l = id l := by
      intro l hl
      unfold dedentLine
      rw [dropIndent_zero]
      exact htrail l hl
    rw [List.map_congr_left hcong, List.map_id]
  rw [html_of_ne_nil (by rw [hprel, hx]; simp), hprel, hm0, hmap,
    joinNL_splitNL, collapseNL_eq_self htriple]

/-- Witness for C4 at a concrete input: `"a\nb"` satisfies all conditions and
is returned unchanged. -/
theorem C4_idempotence_witness : html ["a\nb".data] [] = "a\nb".data :=
  C4_idempotence "a\nb".data (by decide) (by decide) (by decide) (by decide)
    (by decide) (by decide)

/-- C1 counterexample: with segments `["  <div>\n    ", "</div>"]` and values
`["line1\nline2"]` the second segment contributes no newline, so neither the
claimed intermediate concatenation (ending `"\n  </div>"`) nor the claimed
result (ending `"\n</div>"`) matches the code. -/
theorem C1_indentation_propagation_counterexample :
    buildParts ["  <div>\n    ".data, "</div>".data] [some "line1\nline2".data]
      ≠ "  <div>\n    line1\n    line2\n  </div>".data ∧
    html ["  <div>\n    ".data, "</div>".data] [some "line1\nline2".data]
      ≠ "<div>\n  line1\n  line2\n</div>".data := by
  constructor <;> decide

/-- C1 (amended): for those segments and values the intermediate concatenation
is `"  <div>\n    line1\n    line2</div>"` — the four-space local indent is
inserted after the value's internal newline — and the result after dedenting
by the common margin 2 is `"<div>\n  line1\n  line2</div>"` (with `</div>`
directly after `line2`, since the second segment starts with no newline). -/
theorem C1_indentation_propagation :
    buildParts ["  <div>\n    ".data, "</div>".data] [some "line1\nline2".data]
      = "  <div>\n    line1\n    line2</div>".data ∧
    html ["  <div>\n    ".data, "</div>".data] [some "line1\nline2".data]
      = "<div>\n  line1\n  line2</div>".data := by
  constructor <;> decide

/-- C2: evaluating the code at the claimed input.  The `</div>` line sits at
column 0, so the common margin is 0 and the six leading spaces of
`"      <div>"` are kept — the result is the concatenation unchanged, not the
block claimed by the specification (and by the "Expected console output"
comment in `src/html.js`, which this computation contradicts). -/
theorem C2_end_to_end_actual :
    html ["      <div>\n  <p>\n    ".data, "\n  </p>\n</div>".data]
        [some "messy formatting and indentation".data]
      = "      <div>\n  <p>\n    messy formatting and indentation\n  </p>\n</div>".data ∧
    html ["      <div>\n  <p>\n    ".data, "\n  </p>\n</div>".data]
        [some "messy formatting and indentation".data]
      ≠ "<div>\n  <p>\n    messy formatting and indentation\n  </p>\n</div>".data := by
  constructor <;> decide

theorem joinWith_cons_cons (sep l m : Str) (rest : List Str) :
    joinWith sep (l :: m :: rest) = l ++ sep ++ joinWith sep (m :: rest) := by
  rw [joinWith]

theorem insertIndent_eq_joinWith (indent s : Str) :
    insertIndent indent s = joinWith ('\n' :: indent) (splitNL s) := by
  induction s with
  | nil => rfl
  | cons c rest ih =>
    by_cases hc : c = '\n'
    · subst hc
      rw [insertIndent, splitNL_cons_nl]
      cases hsp : splitNL rest with
      | nil => exact absurd hsp (splitNL_ne_nil rest)
      | cons a as =>
        rw [joinWith_cons_cons]
        rw [hsp] at ih
        simp [ih]
    · rw [insertIndent.eq_2 indent c rest (fun hh => hc hh), splitNL_cons c rest hc]
      cases hsp : splitNL rest with
      | nil => exact absurd hsp (splitNL_ne_nil rest)
      | cons a as =>
        rw [hsp] at ih
        simp only [List.headD_cons, List.tail_cons]
        cases as with
        | nil =>
          rw [joinWith]
          rw [joinWith] at ih
          simp [ih]
        | cons b bs =>
          rw [joinWith_cons_cons] at ih ⊢
          simp [ih]

/-- C7 counterexample: for the value `"a\rb"`, whose only line break is a
carriage return, the code's containment test (run before normalization) fails,
so no indent is inserted and the value passes through unchanged — while the
spec's ordering would produce `"a\n  b"`. -/
theorem C7_value_normalization_counterexample :
    processValue "  ".data "a\rb".data = "a\rb".data ∧
    processValueSpec "  ".data "a\rb".data = "a\n  b".data ∧
    processValue "  ".data "a\rb".data ≠ processValueSpec "  ".data "a\rb".data := by
  refine ⟨by decide, by decide, by decide⟩

/-- C7 (amended): the insertion pass checks the *raw* stringified value for
`'\n'`.  If absent (even when `'\r'` line breaks are present), the value is
passed through untouched at this stage; if present, the value's newlines are
normalized and the processed value is exactly the normalized value's lines
joined with newline-plus-local-indent (indent after every internal newline,
none before the first line). -/
theorem C7_value_indent_insertion (indent v : Str) :
    ('\n' ∉ v → processValue indent v = v) ∧
    ('\n' ∈ v → processValue indent v
        = joinWith ('\n' :: indent) (splitNL (normNL v))) := by
  constructor
  · intro h
    unfold processValue
    rw [if_neg h]
  · intro h
    unfold processValue
    rw [if_pos h, insertIndent_eq_joinWith]

/-- Witness for C7 at concrete inputs: a CR-only value is unchanged; an
LF value gets the two-space indent inserted after its newline. -/
theorem C7_value_indent_insertion_witness :
    processValue "  ".data "x\ry".data = "x\ry".data ∧
    processValue "  ".data "a\nb".data
      = joinWith ('\n' :: "  ".data) (splitNL (normNL "a\nb".data)) :=
  ⟨(C7_value_indent_insertion "  ".data "x\ry".data).1 (by decide),
   (C7_value_indent_insertion "  ".data "a\nb".data).2 (by decide)⟩

/-- C8: the local indent of a segment.  If the segment has no `\r`/`\n`, the
whole segment must be spaces/tabs to serve as the indent (so a segment with
any other character yields the empty indent, even if it ends in spaces);
otherwise the suffix after the last newline serves as the indent exactly when
it consists only of spaces/tabs. -/
theorem C8_local_indent (s : Str) :
    (('\r' ∉ s ∧ '\n' ∉ s) →
        localIndent s = (if s.all isSpaceTab then s else [])) ∧
    (∀ a b : Str, ∀ nlc : Char, (nlc = '\r' ∨ nlc = '\n') → '\r' ∉ b → '\n' ∉ b →
        s = a ++ nlc :: b →
        localIndent s = (if b.all isSpaceTab then b else [])) := by
  constructor
  · rintro ⟨hr, hn⟩
    have hll : lastLineCR s = s := by
      unfold lastLineCR
      rw [takeWhile_all (fun c hc => ?_), List.reverse_reverse]
      have hcr : c ≠ '\r' := fun hh => hr (hh ▸ List.mem_reverse.mp hc)
      have hcn : c ≠ '\n' := fun hh => hn (hh ▸ List.mem_reverse.mp hc)
      simp [hcr, hcn]
    unfold localIndent
    rw [hll]
  · intro a b nlc hnlc hrb hnb hs
    have hll : lastLineCR s = b := by
      unfold lastLineCR
      rw [hs, List.reverse_append, List.reverse_cons, List.append_assoc,
        List.singleton_append,
        takeWhile_append_stop nlc a.reverse ?_ (fun c hc => ?_), List.reverse_reverse]
      · rcases hnlc with h | h <;> simp [h]
      · have hcr : c ≠ '\r' := fun hh => hrb (hh ▸ List.mem_reverse.mp hc)
        have hcn : c ≠ '\n' := fun hh => hnb (hh ▸ List.mem_reverse.mp hc)
        simp [hcr, hcn]
    unfold localIndent
    rw [hll]

/-- Witness for C8 at concrete inputs: a newline-free segment with text yields
the empty indent despite its trailing spaces, and a segment ending in
`"\n  "` yields the two-space indent. -/
theorem C8_local_indent_witness :
    localIndent "x  ".data = [] ∧ localIndent "x\n  ".data = "  ".data := by
  constructor
  · have h := (C8_local_indent "x  ".data).1 ⟨by decide, by decide⟩
    rw [h]
    decide
  · have h := (C8_local_indent "x\n  ".data).2 "x".data "  ".data '\n'
      (Or.inr rfl) (by decide) (by decide) (by decide)
    rw [h]
    decide

/-- C9 counterexample: with one segment and one (extra) value, the code
appends the processed extra value after the final segment instead of ignoring
it — the claim predicts `"a"`, the code returns `"ax"`. -/
theorem C9_totality_counterexample :
    html ["a".data] [some "x".data] = "ax".data ∧
    html ["a".data] [some "x".data] ≠ "a".data := by
  constructor <;> decide

theorem buildParts_take (strings : List Str) (vs : List (Option Str)) :
    buildParts strings vs = buildParts strings (vs.take strings.length) := by
  induction strings generalizing vs with
  | nil => rfl
  | cons s ss ih =>
    cases vs with
    | nil => rfl
    | cons v vt =>
      rw [buildParts, List.length_cons, List.take_succ_cons, buildParts, ih vt]

theorem buildParts_coerce (strings : List Str) (vs : List (Option Str)) :
    buildParts strings (vs.map (fun v => some (stringifyValue v))) = buildParts strings vs := by
  induction strings generalizing vs with
  | nil => rfl
  | cons s ss ih =>
    cases vs with
    | nil => rfl
    | cons v vt =>
      rw [List.map_cons, buildParts, buildParts, ih vt]
      rfl

theorem html_congr_buildParts {strings : List Str} {v1 v2 : List (Option Str)}
    (h : buildParts strings v1 = buildParts strings v2) :
    html strings v1 = html strings v2 := by
  unfold html preLines
  rw [h]

/-- C9 (amended): `html` is total — every value list produces a string.  A
`null`/`undefined` value behaves exactly like the empty string; values beyond
index `strings.length` are ignored (a values list of length `strings.length`
has its final value appended after the last segment, contrary to the claim's
"beyond segments−1"), and a short values list simply omits the missing tail. -/
theorem C9_totality (strings : List Str) (values : List (Option Str)) :
    html strings values = html strings (values.take strings.length) ∧
    html strings (values.map (fun v => some (stringifyValue v))) = html strings values := by
  exact ⟨html_congr_buildParts (buildParts_take strings values),
    html_congr_buildParts (buildParts_coerce strings values)⟩

/-- C10: a non-empty line of whitespace characters other than space/tab (such
as the non-breaking space U+00A0) is blank for boundary trimming and margin
purposes, yet dedenting and right-trimming remove none of its characters, and
such a line can survive in the interior of the result (here the line
`" \u00a0 "` survives as `" \u00a0"`, losing only its trailing ASCII space). -/
theorem C10_exotic_blank_lines (l : Str) (hne : l ≠ [])
    (hall : ∀ c ∈ l, isJSWhite c = true ∧ isSpaceTab c = false) :
    (isBlank l = true ∧ rtrimST l = l ∧ ∀ n, dropIndent n l = l) ∧
    html ["a\n \u00a0 \nb".data] [] = "a\n \u00a0\nb".data := by
  refine ⟨⟨?_, ?_, ?_⟩, by decide⟩
  · unfold isBlank
    exact List.all_eq_true.mpr (fun c hc => (hall c hc).1)
  · unfold rtrimST
    cases hrev : l.reverse with
    | nil =>
      rw [List.reverse_eq_nil_iff] at hrev
      exact absurd hrev hne
    | cons r0 rr =>
      have hr0 : isSpaceTab r0 = false :=
        (hall r0 (List.mem_reverse.mp (hrev ▸ List.mem_cons_self r0 rr))).2
      rw [List.dropWhile_cons, hr0]
      simp only [Bool.false_eq_true, if_false]
      rw [← hrev, List.reverse_reverse]
  · intro n
    cases n with
    | zero => exact dropIndent_zero l
    | succ m =>
      cases l with
      | nil => exact absurd rfl hne
      | cons c rest =>
        have hc : isSpaceTab c = false := (hall c (List.mem_cons_self c rest)).2
        rw [dropIndent, hc]
        simp

/-- Witness for C10 at a concrete input: the single-character NBSP line. -/
theorem C10_exotic_blank_lines_witness :
    (isBlank ['\u00a0'] = true ∧ rtrimST ['\u00a0'] = ['\u00a0'] ∧
      ∀ n, dropIndent n ['\u00a0'] = ['\u00a0']) ∧
    html ["a\n \u00a0 \nb".data] [] = "a\n \u00a0\nb".data :=
  C10_exotic_blank_lines ['\u00a0'] (by decide) (by decide)
